import Mathlib

/-!
# Verification of the `edge-case` graph container library

Shallow embedding of `src/lib.rs`: a generic graph container with a
pluggable internal representation (adjacency list or adjacency matrix).
Rust `HashMap`s are modelled extensionally as functions into `Option`;
the matrix's `Vec<Vec<Option<E>>>` is a `List (List (Option E))`.
-/

set_option maxHeartbeats 1000000

namespace EdgeCase

/-- Extensional model of `std::collections::HashMap`. -/
def HMap (K V : Type) : Type := K → Option V

/-- `HashMap::new()`. -/
def HMap.empty {K V : Type} : HMap K V := fun _ => none

/-- `HashMap::insert` (overwrites any previous value). -/
def HMap.insert {K V : Type} [DecidableEq K] (m : HMap K V) (k : K) (v : V) : HMap K V :=
  fun x => if x = k then some v else m x

/-- `HashMap::get`. -/
def HMap.get {K V : Type} (m : HMap K V) (k : K) : Option V := m k

@[simp] theorem HMap.get_empty {K V : Type} (k : K) : (HMap.empty : HMap K V).get k = none := rfl

@[simp] theorem HMap.get_insert_self {K V : Type} [DecidableEq K] (m : HMap K V) (k : K) (v : V) :
    (m.insert k v).get k = some v := by
  simp [HMap.get, HMap.insert]

theorem HMap.get_insert_ne {K V : Type} [DecidableEq K] (m : HMap K V) {k x : K} (v : V)
    (h : x ≠ k) : (m.insert k v).get x = m.get x := by
  simp [HMap.get, HMap.insert, h]

theorem HMap.get_insert {K V : Type} [DecidableEq K] (m : HMap K V) (k x : K) (v : V) :
    (m.insert k v).get x = if x = k then some v else m.get x := rfl

/-- The sparse store: `struct AdjacencyList { list: HashMap<K, HashMap<K, E>> }`. -/
structure AdjacencyList (K E : Type) where
  list : HMap K (HMap K E)

/-- `AdjacencyList::new`. -/
def AdjacencyList.new {K E : Type} : AdjacencyList K E := ⟨HMap.empty⟩

/-- `AdjacencyList::insert`: unconditionally maps `key` to a fresh empty neighbor map. -/
def AdjacencyList.insert {K E : Type} [DecidableEq K] (s : AdjacencyList K E) (key : K) :
    AdjacencyList K E :=
  ⟨s.list.insert key HMap.empty⟩

/-- `AdjacencyList::connect`: no-op when `u` has no neighbor map, otherwise
inserts/overwrites the `(v, weight)` entry in `u`'s neighbor map. -/
def AdjacencyList.connect {K E : Type} [DecidableEq K] (s : AdjacencyList K E) (u v : K)
    (weight : E) : AdjacencyList K E :=
  match s.list.get u with
  | none => s
  | some edge_list => ⟨s.list.insert u (edge_list.insert v weight)⟩

/-- `AdjacencyList::get_edge`: `self.list.get(u)?.get(v)`. -/
def AdjacencyList.get_edge {K E : Type} (s : AdjacencyList K E) (u v : K) : Option E :=
  (s.list.get u).bind fun edge_list => edge_list.get v

/-- The dense store:
`struct AdjacencyMatrix { idx_map: HashMap<K, usize>, matrix: Vec<Vec<Option<E>>> }`. -/
structure AdjacencyMatrix (K E : Type) where
  idx_map : HMap K Nat
  matrix : List (List (Option E))

/-- `AdjacencyMatrix::new`. -/
def AdjacencyMatrix.new {K E : Type} : AdjacencyMatrix K E := ⟨HMap.empty, []⟩

/-- `AdjacencyMatrix::insert`: extend every row by one empty cell, append a fresh
all-empty row, and (re)assign `key`'s index to the previous row count. -/
def AdjacencyMatrix.insert {K E : Type} [DecidableEq K] (s : AdjacencyMatrix K E) (key : K) :
    AdjacencyMatrix K E :=
  let grown := s.matrix.map (fun row => row ++ [none])
  let size := grown.length
  { idx_map := s.idx_map.insert key size
    matrix := grown ++ [List.replicate (size + 1) none] }

/-- `AdjacencyMatrix::idxs`: resolve both keys to indices. -/
def AdjacencyMatrix.idxs {K E : Type} (s : AdjacencyMatrix K E) (u v : K) :
    Option (Nat × Nat) :=
  (s.idx_map.get u).bind fun ui => (s.idx_map.get v).bind fun vi => some (ui, vi)

/-- `AdjacencyMatrix::connect`: no-op when either key is unknown, otherwise set
cell `(idx u, idx v)` to the payload. -/
def AdjacencyMatrix.connect {K E : Type} [DecidableEq K] (s : AdjacencyMatrix K E) (u v : K)
    (weight : E) : AdjacencyMatrix K E :=
  match s.idxs u v with
  | none => s
  | some (u_idx, v_idx) =>
    { s with matrix := s.matrix.set u_idx ((s.matrix.getD u_idx []).set v_idx (some weight)) }

/-- `AdjacencyMatrix::get_edge`: resolve both indices, then read the cell. -/
def AdjacencyMatrix.get_edge {K E : Type} (s : AdjacencyMatrix K E) (u v : K) : Option E :=
  match s.idxs u v with
  | none => none
  | some (u_idx, v_idx) => ((s.matrix[u_idx]?).bind fun row => row[v_idx]?).bind id

/-- `enum GraphRepr { AdjacencyList(..), AdjacencyMatrix(..) }`. -/
inductive GraphRepr (K E : Type) where
  | AdjacencyList (list : AdjacencyList K E)
  | AdjacencyMatrix (matrix : AdjacencyMatrix K E)

/-- `impl Default for GraphRepr`: the list store. -/
def GraphRepr.default {K E : Type} : GraphRepr K E := .AdjacencyList AdjacencyList.new

/-- `GraphRepr::insert`: dispatch to the active store. -/
def GraphRepr.insert {K E : Type} [DecidableEq K] : GraphRepr K E → K → GraphRepr K E
  | .AdjacencyList l, key => .AdjacencyList (l.insert key)
  | .AdjacencyMatrix m, key => .AdjacencyMatrix (m.insert key)

/-- `GraphRepr::connect`: dispatch to the active store. -/
def GraphRepr.connect {K E : Type} [DecidableEq K] : GraphRepr K E → K → K → E → GraphRepr K E
  | .AdjacencyList l, u, v, weight => .AdjacencyList (l.connect u v weight)
  | .AdjacencyMatrix m, u, v, weight => .AdjacencyMatrix (m.connect u v weight)

/-- `GraphRepr::get_edge`: dispatch to the active store. -/
def GraphRepr.get_edge {K E : Type} : GraphRepr K E → K → K → Option E
  | .AdjacencyList l, u, v => l.get_edge u v
  | .AdjacencyMatrix m, u, v => m.get_edge u v

/-- Whether the active store has registered `k` (a top-level list entry, or a
matrix index-map entry). -/
def GraphRepr.registered {K E : Type} : GraphRepr K E → K → Bool
  | .AdjacencyList l, k => (l.list.get k).isSome
  | .AdjacencyMatrix m, k => (m.idx_map.get k).isSome

/-- Whether the active store is the adjacency list (the only store any public
constructor produces). -/
def GraphRepr.isList {K E : Type} : GraphRepr K E → Bool
  | .AdjacencyList _ => true
  | .AdjacencyMatrix _ => false

/-- `struct WeightedDigraph { vertex_map: HashMap<K, V>, repr: GraphRepr<K, E> }`. -/
structure WeightedDigraph (K V E : Type) where
  vertex_map : HMap K V
  repr : GraphRepr K E

/-- `WeightedDigraph::new` (= `Default`): empty vertex table, list store. -/
def WeightedDigraph.new {K V E : Type} : WeightedDigraph K V E :=
  ⟨HMap.empty, GraphRepr.default⟩

/-- `WeightedDigraph::get`. -/
def WeightedDigraph.get {K V E : Type} (g : WeightedDigraph K V E) (key : K) : Option V :=
  g.vertex_map.get key

/-- `WeightedDigraph::insert`: write the vertex table, then register the key in
the representation. -/
def WeightedDigraph.insert {K V E : Type} [DecidableEq K] (g : WeightedDigraph K V E)
    (key : K) (value : V) : WeightedDigraph K V E :=
  { vertex_map := g.vertex_map.insert key value, repr := g.repr.insert key }

/-- `WeightedDigraph::connect`: delegate to the representation. -/
def WeightedDigraph.connect {K V E : Type} [DecidableEq K] (g : WeightedDigraph K V E)
    (u v : K) (weight : E) : WeightedDigraph K V E :=
  { g with repr := g.repr.connect u v weight }

/-- `WeightedDigraph::get_edge`: delegate to the representation. -/
def WeightedDigraph.get_edge {K V E : Type} (g : WeightedDigraph K V E) (u v : K) : Option E :=
  g.repr.get_edge u v

/-! ## Operation sequences -/

/-- A public mutating call: `insert(key, value)` or `connect(u, v, weight)`
(`get`/`get_edge` are pure and do not change state). -/
inductive Op (K V E : Type) where
  | insert (key : K) (value : V)
  | connect (u v : K) (weight : E)
  deriving DecidableEq

/-- Apply one call to a `WeightedDigraph`. -/
def WeightedDigraph.applyOp {K V E : Type} [DecidableEq K] (g : WeightedDigraph K V E) :
    Op K V E → WeightedDigraph K V E
  | .insert key value => g.insert key value
  | .connect u v weight => g.connect u v weight

/-- Apply a sequence of calls, left to right. -/
def WeightedDigraph.applyOps {K V E : Type} [DecidableEq K] (g : WeightedDigraph K V E) :
    List (Op K V E) → WeightedDigraph K V E
  | [] => g
  | op :: ops => (g.applyOp op).applyOps ops

/-- Apply one call to a bare matrix store (vertex payloads are irrelevant there). -/
def AdjacencyMatrix.applyOp {K E : Type} [DecidableEq K] (m : AdjacencyMatrix K E) :
    Op K Unit E → AdjacencyMatrix K E
  | .insert key _ => m.insert key
  | .connect u v weight => m.connect u v weight

/-- Apply a sequence of calls to a bare matrix store, left to right. -/
def AdjacencyMatrix.applyOps {K E : Type} [DecidableEq K] (m : AdjacencyMatrix K E) :
    List (Op K Unit E) → AdjacencyMatrix K E
  | [] => m
  | op :: ops => (m.applyOp op).applyOps ops

/-- Apply one call to a bare list store. -/
def AdjacencyList.applyOp {K E : Type} [DecidableEq K] (s : AdjacencyList K E) :
    Op K Unit E → AdjacencyList K E
  | .insert key _ => s.insert key
  | .connect u v weight => s.connect u v weight

/-- Apply a sequence of calls to a bare list store, left to right. -/
def AdjacencyList.applyOps {K E : Type} [DecidableEq K] (s : AdjacencyList K E) :
    List (Op K Unit E) → AdjacencyList K E
  | [] => s
  | op :: ops => (s.applyOp op).applyOps ops

/-! ## Basic store lemmas -/

theorem AdjacencyList.connect_of_get_none {K E : Type} [DecidableEq K]
    (s : AdjacencyList K E) {u : K} (v : K) (weight : E) (h : s.list.get u = none) :
    s.connect u v weight = s := by
  simp [AdjacencyList.connect, h]

theorem AdjacencyList.get_edge_of_get_none {K E : Type} (s : AdjacencyList K E) {u : K}
    (v : K) (h : s.list.get u = none) : s.get_edge u v = none := by
  simp [AdjacencyList.get_edge, h]

theorem AdjacencyList.get_connect {K E : Type} [DecidableEq K] (s : AdjacencyList K E)
    {u : K} (v : K) (weight : E) {edge_list : HMap K E} (h : s.list.get u = some edge_list) :
    (s.connect u v weight).list = s.list.insert u (edge_list.insert v weight) := by
  simp [AdjacencyList.connect, h]

theorem AdjacencyList.get_edge_connect_self {K E : Type} [DecidableEq K]
    (s : AdjacencyList K E) {u : K} (v : K) (weight : E) {edge_list : HMap K E}
    (h : s.list.get u = some edge_list) :
    (s.connect u v weight).get_edge u v = some weight := by
  simp [AdjacencyList.get_edge, AdjacencyList.get_connect s v weight h]

/-- `connect u v` leaves every edge query `(a, b)` with `b ≠ v` or `a ≠ u` unchanged. -/
theorem AdjacencyList.get_edge_connect_ne {K E : Type} [DecidableEq K]
    (s : AdjacencyList K E) (u v : K) (weight : E) {a b : K} (hab : a ≠ u ∨ b ≠ v) :
    (s.connect u v weight).get_edge a b = s.get_edge a b := by
  cases hget : s.list.get u with
  | none => rw [s.connect_of_get_none v weight hget]
  | some edge_list =>
    rw [AdjacencyList.get_edge, s.get_connect v weight hget]
    rcases Decidable.em (a = u) with rfl | hau
    · rcases hab with hau | hbv
      · exact absurd rfl hau
      · simp [HMap.get_insert_self, HMap.get_insert_ne _ _ hbv, AdjacencyList.get_edge, hget]
    · rw [HMap.get_insert_ne _ _ hau, AdjacencyList.get_edge]

theorem AdjacencyList.get_connect_isSome {K E : Type} [DecidableEq K]
    (s : AdjacencyList K E) (u v : K) (weight : E) (k : K) :
    ((s.connect u v weight).list.get k).isSome = (s.list.get k).isSome := by
  cases hget : s.list.get u with
  | none => rw [s.connect_of_get_none v weight hget]
  | some edge_list =>
    rw [s.get_connect v weight hget]
    rcases Decidable.em (k = u) with rfl | hku
    · simp [HMap.get_insert_self, hget]
    · rw [HMap.get_insert_ne _ _ hku]

theorem AdjacencyMatrix.idxs_of_left_none {K E : Type} (s : AdjacencyMatrix K E) {u : K}
    (v : K) (h : s.idx_map.get u = none) : s.idxs u v = none := by
  simp [AdjacencyMatrix.idxs, h]

theorem AdjacencyMatrix.idxs_of_right_none {K E : Type} (s : AdjacencyMatrix K E) (u : K)
    {v : K} (h : s.idx_map.get v = none) : s.idxs u v = none := by
  cases hu : s.idx_map.get u <;> simp [AdjacencyMatrix.idxs, h, hu]

theorem AdjacencyMatrix.idxs_of_some {K E : Type} (s : AdjacencyMatrix K E) {u v : K}
    {ui vi : Nat} (hu : s.idx_map.get u = some ui) (hv : s.idx_map.get v = some vi) :
    s.idxs u v = some (ui, vi) := by
  simp [AdjacencyMatrix.idxs, hu, hv]

theorem AdjacencyMatrix.connect_of_idxs_none {K E : Type} [DecidableEq K]
    (s : AdjacencyMatrix K E) {u v : K} (weight : E) (h : s.idxs u v = none) :
    s.connect u v weight = s := by
  simp [AdjacencyMatrix.connect, h]

theorem AdjacencyMatrix.get_edge_of_idxs_none {K E : Type} (s : AdjacencyMatrix K E)
    {u v : K} (h : s.idxs u v = none) : s.get_edge u v = none := by
  simp [AdjacencyMatrix.get_edge, h]

theorem AdjacencyMatrix.idx_map_connect {K E : Type} [DecidableEq K]
    (s : AdjacencyMatrix K E) (u v : K) (weight : E) :
    (s.connect u v weight).idx_map = s.idx_map := by
  rw [AdjacencyMatrix.connect]
  cases s.idxs u v with
  | none => rfl
  | some p => cases p; rfl

/-! ## C1 -/

theorem WeightedDigraph.get_applyOps_of_not_inserted {K V E : Type} [DecidableEq K] :
    ∀ (ops : List (Op K V E)) (g : WeightedDigraph K V E) (k : K), g.get k = none →
      (∀ v, Op.insert k v ∉ ops) → (g.applyOps ops).get k = none
  | [], g, k, hg, _ => hg
  | .insert k2 v2 :: ops, g, k, hg, hops => by
    refine get_applyOps_of_not_inserted ops _ k ?_ fun v hv => hops v (List.mem_cons_of_mem _ hv)
    have hk : k ≠ k2 := by
      intro h
      exact hops v2 (h ▸ List.mem_cons_self _ _)
    show ((g.vertex_map.insert k2 v2).get k) = none
    rw [HMap.get_insert_ne _ _ hk]
    exact hg
  | .connect u v w :: ops, g, k, hg, hops =>
    get_applyOps_of_not_inserted ops _ k hg fun v hv => hops v (List.mem_cons_of_mem _ hv)

/-- **C1.** After `insert(k, v)` on any graph, `get(k)` returns `Some(v)`; and for
any sequence of calls starting from `new` that never inserts a key `k`, `get(k)`
returns `None`. -/
theorem C1_insert_then_get {K V E : Type} [DecidableEq K] :
    (∀ (g : WeightedDigraph K V E) (k : K) (v : V), (g.insert k v).get k = some v) ∧
    (∀ (ops : List (Op K V E)) (k : K), (∀ v, Op.insert k v ∉ ops) →
      (WeightedDigraph.new.applyOps ops).get k = none) := by
  constructor
  · intro g k v
    exact HMap.get_insert_self _ _ _
  · intro ops k hops
    exact WeightedDigraph.get_applyOps_of_not_inserted ops _ k rfl hops

/-- Witness for C1 at concrete inputs. -/
theorem C1_insert_then_get_witness :
    ((WeightedDigraph.new (K := Nat) (V := Nat) (E := Nat)).insert 1 7).get 1 = some 7 ∧
    ((WeightedDigraph.new (K := Nat) (V := Nat) (E := Nat)).applyOps
      [.insert 1 7, .connect 1 2 3]).get 2 = none := by
  refine ⟨C1_insert_then_get.1 _ 1 7, C1_insert_then_get.2 [.insert 1 7, .connect 1 2 3] 2 ?_⟩
  intro v
  simp

/-! ## C2 -/

/-- **C2.** On a (list-backed) directed graph with `u` and `v` registered: after
`connect(u, v, w)`, `get_edge(u, v)` is `Some(w)`; for `u ≠ v` the query
`get_edge(v, u)` is unchanged (so it stays `None` unless `v→u` was separately
connected); and for `u = v` the two queries coincide and both give `Some(w)`. -/
theorem C2_connect_directed {K V E : Type} [DecidableEq K] (g : WeightedDigraph K V E)
    (u v : K) (w : E) (hL : g.repr.isList = true) (hu : g.repr.registered u = true)
    (hv : g.repr.registered v = true) :
    (g.connect u v w).get_edge u v = some w ∧
    (u ≠ v → (g.connect u v w).get_edge v u = g.get_edge v u) ∧
    (u = v → (g.connect u v w).get_edge v u = some w) := by
  cases hr : g.repr with
  | AdjacencyMatrix m => rw [hr] at hL; exact absurd hL (by simp [GraphRepr.isList])
  | AdjacencyList s =>
    rw [hr] at hu
    obtain ⟨edge_list, hel⟩ := Option.isSome_iff_exists.mp (by exact hu)
    have h1 : (s.connect u v w).get_edge u v = some w :=
      s.get_edge_connect_self v w hel
    refine ⟨?_, ?_, ?_⟩
    · show (g.repr.connect u v w).get_edge u v = some w
      rw [hr]
      exact h1
    · intro huv
      show (g.repr.connect u v w).get_edge v u = g.repr.get_edge v u
      rw [hr]
      exact s.get_edge_connect_ne u v w (Or.inl (Ne.symm huv))
    · intro huv
      show (g.repr.connect u v w).get_edge v u = some w
      rw [hr]
      subst huv
      exact h1

/-- Witness for C2 at concrete inputs (the source's `connect_vertices` test). -/
theorem C2_connect_directed_witness :
    (((WeightedDigraph.new (K := Nat) (V := String) (E := Nat)).insert 1 "hi"
        |>.insert 2 "bye").connect 1 2 10000).get_edge 1 2 = some 10000 ∧
    (((WeightedDigraph.new (K := Nat) (V := String) (E := Nat)).insert 1 "hi"
        |>.insert 2 "bye").connect 1 2 10000).get_edge 2 1 =
      ((WeightedDigraph.new (K := Nat) (V := String) (E := Nat)).insert 1 "hi"
        |>.insert 2 "bye").get_edge 2 1 := by
  have h := C2_connect_directed ((WeightedDigraph.new (K := Nat) (V := String)
    (E := Nat)).insert 1 "hi" |>.insert 2 "bye") 1 2 10000 rfl rfl rfl
  exact ⟨h.1, h.2.1 (by decide)⟩

/-! ## C3 -/

/-- **C3 counterexample.** Inserting key `1` twice into the matrix store
reassigns its index: the first insert assigns index `0`, the second reassigns
index `1` — the index is not stable under duplicate insertion. -/
theorem C3_counterexample :
    (((AdjacencyMatrix.new (K := Nat) (E := Nat)).insert 1).idx_map.get 1 = some 0) ∧
    ((((AdjacencyMatrix.new (K := Nat) (E := Nat)).insert 1).insert 1).idx_map.get 1
      = some 1) := by
  exact ⟨rfl, rfl⟩

/-- **C3 amended.** The index assigned at insertion time equals the vertex count
at that moment, and it is stable across any further sequence of `insert` and
`connect` calls that does not insert the same key again. -/
theorem C3_index_stability {K E : Type} [DecidableEq K] :
    (∀ (m : AdjacencyMatrix K E) (k : K),
      (m.insert k).idx_map.get k = some m.matrix.length) ∧
    (∀ (ops : List (Op K Unit E)) (m : AdjacencyMatrix K E) (k : K) (i : Nat),
      m.idx_map.get k = some i → (∀ value, Op.insert k value ∉ ops) →
      (m.applyOps ops).idx_map.get k = some i) := by
  constructor
  · intro m k
    show (m.idx_map.insert k _).get k = _
    rw [HMap.get_insert_self]
    congr 1
    exact m.matrix.length_map _
  · intro ops
    induction ops with
    | nil => intro m k i h _; exact h
    | cons op ops ih =>
      intro m k i h hops
      cases op with
      | insert k2 value =>
        refine ih _ k i ?_ fun v hv => hops v (List.mem_cons_of_mem _ hv)
        have hk : k ≠ k2 := by
          intro hkk
          exact hops value (hkk ▸ List.mem_cons_self _ _)
        show ((m.idx_map.insert k2 _).get k) = some i
        rw [HMap.get_insert_ne _ _ hk]
        exact h
      | connect u v w =>
        refine ih _ k i ?_ fun v2 hv => hops v2 (List.mem_cons_of_mem _ hv)
        show (m.connect u v w).idx_map.get k = some i
        rw [m.idx_map_connect u v w]
        exact h

/-- Witness for the amended C3 at concrete inputs. -/
theorem C3_index_stability_witness :
    ((AdjacencyMatrix.new (K := Nat) (E := Nat)).insert 5).idx_map.get 5 = some 0 ∧
    (((AdjacencyMatrix.new (K := Nat) (E := Nat)).insert 5).applyOps
      [.insert 6 (), .connect 5 6 3]).idx_map.get 5 = some 0 := by
  refine ⟨C3_index_stability.1 AdjacencyMatrix.new 5, ?_⟩
  refine C3_index_stability.2 [.insert 6 (), .connect 5 6 3] _ 5 0 rfl ?_
  intro v
  simp

/-! ## C4 -/

/-- **C4 counterexample.** In the adjacency-list store, connecting from the
registered key `1` to the never-inserted key `2` is not a no-op: the dangling
edge is stored and `get_edge(1, 2)` returns `Some(5)`, not `None`. -/
theorem C4_counterexample :
    (((AdjacencyList.new (K := Nat) (E := Nat)).insert 1).connect 1 2 5).get_edge 1 2
      = some 5 := by
  rfl

/-- **C4 amended.** Connecting to a never-inserted target `v`: in the matrix
store it is a no-op (state unchanged, `get_edge(u, v)` returns `None`); in the
list store that holds only when `u` is also unregistered — when `u` is
registered the dangling edge is stored and `get_edge(u, v)` returns `Some(w)`. -/
theorem C4_connect_unknown_target {K E : Type} [DecidableEq K]
    (m : AdjacencyMatrix K E) (s : AdjacencyList K E) (u v : K) (w : E)
    (hm : m.idx_map.get v = none) (_hs : s.list.get v = none) :
    (m.connect u v w = m ∧ (m.connect u v w).get_edge u v = none) ∧
    (s.list.get u = none → s.connect u v w = s ∧ (s.connect u v w).get_edge u v = none) ∧
    (∀ edge_list, s.list.get u = some edge_list →
      (s.connect u v w).get_edge u v = some w) := by
  have hidxs : m.idxs u v = none := m.idxs_of_right_none u hm
  refine ⟨⟨m.connect_of_idxs_none w hidxs, ?_⟩, ?_, ?_⟩
  · rw [m.connect_of_idxs_none w hidxs]
    exact m.get_edge_of_idxs_none hidxs
  · intro hu
    rw [s.connect_of_get_none v w hu]
    exact ⟨rfl, s.get_edge_of_get_none v hu⟩
  · intro edge_list hel
    exact s.get_edge_connect_self v w hel

/-- Witness for the amended C4 at concrete inputs. -/
theorem C4_connect_unknown_target_witness :
    (((AdjacencyMatrix.new (K := Nat) (E := Nat)).insert 1).connect 1 2 5
      = (AdjacencyMatrix.new (K := Nat) (E := Nat)).insert 1) ∧
    (((AdjacencyList.new (K := Nat) (E := Nat)).insert 1).connect 1 2 5).get_edge 1 2
      = some 5 := by
  have h := C4_connect_unknown_target ((AdjacencyMatrix.new (K := Nat) (E := Nat)).insert 1)
    ((AdjacencyList.new (K := Nat) (E := Nat)).insert 1) 1 2 5 rfl rfl
  exact ⟨h.1.1, h.2.2 HMap.empty rfl⟩

/-! ## C5 -/

/-- **C5.** In either store, `connect(u, v, w)` from an unregistered source `u`
is a silent no-op: the store is unchanged and `get_edge(u, v)` returns `None`
(the model is total, so no panic is possible). -/
theorem C5_connect_unknown_source {K E : Type} [DecidableEq K] (r : GraphRepr K E)
    (u v : K) (w : E) (h : r.registered u = false) :
    r.connect u v w = r ∧ (r.connect u v w).get_edge u v = none := by
  cases r with
  | AdjacencyList s =>
    have hu : s.list.get u = none := by
      have h2 : (s.list.get u).isSome = false := h
      cases hg : s.list.get u with
      | none => rfl
      | some el => rw [hg] at h2; exact absurd h2 (by simp)
    have hc : s.connect u v w = s := s.connect_of_get_none v w hu
    refine ⟨?_, ?_⟩
    · show GraphRepr.AdjacencyList (s.connect u v w) = _
      rw [hc]
    · show (s.connect u v w).get_edge u v = none
      rw [hc]
      exact s.get_edge_of_get_none v hu
  | AdjacencyMatrix m =>
    have hu : m.idx_map.get u = none := by
      have h2 : (m.idx_map.get u).isSome = false := h
      cases hg : m.idx_map.get u with
      | none => rfl
      | some i => rw [hg] at h2; exact absurd h2 (by simp)
    have hidxs : m.idxs u v = none := m.idxs_of_left_none v hu
    have hc : m.connect u v w = m := m.connect_of_idxs_none w hidxs
    refine ⟨?_, ?_⟩
    · show GraphRepr.AdjacencyMatrix (m.connect u v w) = _
      rw [hc]
    · show (m.connect u v w).get_edge u v = none
      rw [hc]
      exact m.get_edge_of_idxs_none hidxs

/-- Witness for C5 at concrete inputs. -/
theorem C5_connect_unknown_source_witness :
    (GraphRepr.default (K := Nat) (E := Nat)).connect 1 2 3 = GraphRepr.default ∧
    ((GraphRepr.default (K := Nat) (E := Nat)).connect 1 2 3).get_edge 1 2 = none :=
  C5_connect_unknown_source GraphRepr.default 1 2 3 rfl

/-! ## C6 -/

/-- **C6.** Re-inserting an existing key `k` into a (list-backed) graph
overwrites its vertex payload, resets all of `k`'s outgoing edges to `None`,
and leaves every edge query from any other source vertex (in particular, edges
incoming to `k` from other vertices) unchanged. -/
theorem C6_reinsert_overwrites {K V E : Type} [DecidableEq K] (g : WeightedDigraph K V E)
    (k : K) (v2 : V) (hL : g.repr.isList = true) (_hk : g.repr.registered k = true) :
    (g.insert k v2).get k = some v2 ∧
    (∀ v, (g.insert k v2).get_edge k v = none) ∧
    (∀ u, u ≠ k → ∀ v, (g.insert k v2).get_edge u v = g.get_edge u v) := by
  cases hr : g.repr with
  | AdjacencyMatrix m => rw [hr] at hL; exact absurd hL (by simp [GraphRepr.isList])
  | AdjacencyList s =>
    refine ⟨HMap.get_insert_self _ _ _, ?_, ?_⟩
    · intro v
      show (g.repr.insert k).get_edge k v = none
      rw [hr]
      show (s.insert k).get_edge k v = none
      rw [AdjacencyList.get_edge, AdjacencyList.insert, HMap.get_insert_self]
      rfl
    · intro u hu v
      show (g.repr.insert k).get_edge u v = g.repr.get_edge u v
      rw [hr]
      show (s.insert k).get_edge u v = s.get_edge u v
      rw [AdjacencyList.get_edge, AdjacencyList.insert, HMap.get_insert_ne _ _ hu,
        AdjacencyList.get_edge]

/-- Witness for C6 at concrete inputs: re-inserting key 1 wipes its outgoing
edge to 2 but keeps the incoming edge from 2. -/
theorem C6_reinsert_overwrites_witness :
    ((((WeightedDigraph.new (K := Nat) (V := Nat) (E := Nat)).insert 1 7 |>.insert 2 8
        |>.connect 1 2 3 |>.connect 2 1 4).insert 1 9).get 1 = some 9) ∧
    ((((WeightedDigraph.new (K := Nat) (V := Nat) (E := Nat)).insert 1 7 |>.insert 2 8
        |>.connect 1 2 3 |>.connect 2 1 4).insert 1 9).get_edge 1 2 = none) ∧
    ((((WeightedDigraph.new (K := Nat) (V := Nat) (E := Nat)).insert 1 7 |>.insert 2 8
        |>.connect 1 2 3 |>.connect 2 1 4).insert 1 9).get_edge 2 1 =
      ((WeightedDigraph.new (K := Nat) (V := Nat) (E := Nat)).insert 1 7 |>.insert 2 8
        |>.connect 1 2 3 |>.connect 2 1 4).get_edge 2 1) := by
  have h := C6_reinsert_overwrites ((WeightedDigraph.new (K := Nat) (V := Nat)
    (E := Nat)).insert 1 7 |>.insert 2 8 |>.connect 1 2 3 |>.connect 2 1 4) 1 9 rfl rfl
  exact ⟨h.1, h.2.1 2, h.2.2 2 (by decide) 1⟩

/-! ## C8 -/

/-- The lockstep invariant: a key is in the vertex table iff it is registered in
the active representation's internal structure. -/
def WeightedDigraph.lockstep {K V E : Type} (g : WeightedDigraph K V E) : Prop :=
  ∀ k, (g.vertex_map.get k).isSome = g.repr.registered k

theorem GraphRepr.registered_insert {K E : Type} [DecidableEq K] (r : GraphRepr K E)
    (key k : K) : (r.insert key).registered k = if k = key then true else r.registered k := by
  cases r with
  | AdjacencyList l =>
    show ((l.list.insert key HMap.empty).get k).isSome = _
    rw [HMap.get_insert]
    rcases Decidable.em (k = key) with h | h <;> simp [h, GraphRepr.registered]
  | AdjacencyMatrix m =>
    show ((m.idx_map.insert key _).get k).isSome = _
    rw [HMap.get_insert]
    rcases Decidable.em (k = key) with h | h <;> simp [h, GraphRepr.registered]

theorem GraphRepr.registered_connect {K E : Type} [DecidableEq K] (r : GraphRepr K E)
    (u v : K) (weight : E) (k : K) : (r.connect u v weight).registered k = r.registered k := by
  cases r with
  | AdjacencyList l => exact l.get_connect_isSome u v weight k
  | AdjacencyMatrix m =>
    show ((m.connect u v weight).idx_map.get k).isSome = (m.idx_map.get k).isSome
    rw [m.idx_map_connect u v weight]

theorem WeightedDigraph.lockstep_applyOp {K V E : Type} [DecidableEq K]
    (g : WeightedDigraph K V E) (h : g.lockstep) (op : Op K V E) : (g.applyOp op).lockstep := by
  cases op with
  | insert key value =>
    intro k
    show ((g.vertex_map.insert key value).get k).isSome = (g.repr.insert key).registered k
    rw [HMap.get_insert, GraphRepr.registered_insert]
    rcases Decidable.em (k = key) with hk | hk
    · simp [hk]
    · simp only [if_neg hk]
      exact h k
  | connect u v weight =>
    intro k
    show (g.vertex_map.get k).isSome = (g.repr.connect u v weight).registered k
    rw [GraphRepr.registered_connect]
    exact h k

/-- **C8.** The vertex table and the active representation stay in lockstep:
from any state satisfying the invariant (in particular from `new`), every
sequence of calls preserves that a key is in the vertex table iff it has an
entry in the active store (list entry or matrix index). -/
theorem C8_lockstep {K V E : Type} [DecidableEq K] :
    ∀ (ops : List (Op K V E)) (g : WeightedDigraph K V E), g.lockstep →
      (g.applyOps ops).lockstep
  | [], _, h => h
  | op :: ops, g, h => C8_lockstep ops (g.applyOp op) (g.lockstep_applyOp h op)

/-- Witness for C8 at concrete inputs. -/
theorem C8_lockstep_witness :
    (((WeightedDigraph.new (K := Nat) (V := Nat) (E := Nat)).applyOps
        [.insert 1 7, .connect 1 2 3]).vertex_map.get 1).isSome =
      ((WeightedDigraph.new (K := Nat) (V := Nat) (E := Nat)).applyOps
        [.insert 1 7, .connect 1 2 3]).repr.registered 1 :=
  C8_lockstep [.insert 1 7, .connect 1 2 3] WeightedDigraph.new (fun _ => rfl) 1

/-! ## C9 -/

/-- Number of `insert` calls in a sequence. -/
def countInserts {K V E : Type} : List (Op K V E) → Nat
  | [] => 0
  | .insert _ _ :: ops => countInserts ops + 1
  | .connect _ _ _ :: ops => countInserts ops

/-- Well-formedness of the matrix store: the matrix is square and every
assigned index is in bounds. -/
def AdjacencyMatrix.wf {K E : Type} (m : AdjacencyMatrix K E) : Prop :=
  (∀ row ∈ m.matrix, row.length = m.matrix.length) ∧
  (∀ k i, m.idx_map.get k = some i → i < m.matrix.length)

theorem AdjacencyMatrix.wf_new {K E : Type} : (AdjacencyMatrix.new (K := K) (E := E)).wf := by
  constructor
  · intro row hrow
    exact absurd hrow (List.not_mem_nil row)
  · intro k i h
    exact absurd h (by simp [AdjacencyMatrix.new, HMap.get_empty])

theorem AdjacencyMatrix.length_insert {K E : Type} [DecidableEq K] (m : AdjacencyMatrix K E)
    (key : K) : (m.insert key).matrix.length = m.matrix.length + 1 := by
  simp [AdjacencyMatrix.insert]

theorem AdjacencyMatrix.idx_map_insert {K E : Type} [DecidableEq K] (m : AdjacencyMatrix K E)
    (key k : K) :
    (m.insert key).idx_map.get k =
      if k = key then some m.matrix.length else m.idx_map.get k := by
  show (m.idx_map.insert key _).get k = _
  rw [HMap.get_insert]
  simp

theorem AdjacencyMatrix.wf_insert {K E : Type} [DecidableEq K] (m : AdjacencyMatrix K E)
    (key : K) (h : m.wf) : (m.insert key).wf := by
  constructor
  · intro row hrow
    rw [m.length_insert key]
    have hrow2 : row ∈ m.matrix.map (fun r => r ++ [none]) ∨
        row ∈ [List.replicate (m.matrix.length + 1) none] := by
      rw [← List.mem_append]
      simpa [AdjacencyMatrix.insert] using hrow
    rcases hrow2 with hrow2 | hrow2
    · obtain ⟨r, hr, rfl⟩ := List.mem_map.mp hrow2
      rw [List.length_append, h.1 r hr]
      rfl
    · rw [List.mem_singleton.mp hrow2, List.length_replicate]
  · intro k i hk
    rw [m.length_insert key]
    rw [m.idx_map_insert key k] at hk
    rcases Decidable.em (k = key) with hkey | hkey
    · rw [if_pos hkey] at hk
      have hik := Option.some.inj hk
      omega
    · rw [if_neg hkey] at hk
      exact Nat.lt_succ_of_lt (h.2 k i hk)

theorem AdjacencyMatrix.idxs_some_inv {K E : Type} (s : AdjacencyMatrix K E) {u v : K}
    {ui vi : Nat} (h : s.idxs u v = some (ui, vi)) :
    s.idx_map.get u = some ui ∧ s.idx_map.get v = some vi := by
  cases hu : s.idx_map.get u with
  | none => rw [AdjacencyMatrix.idxs, hu] at h; exact absurd h (by simp)
  | some ui2 =>
    cases hv : s.idx_map.get v with
    | none => rw [AdjacencyMatrix.idxs, hu, hv] at h; exact absurd h (by simp)
    | some vi2 =>
      rw [AdjacencyMatrix.idxs, hu, hv] at h
      simp only [Option.some_bind, Option.some.injEq, Prod.mk.injEq] at h
      obtain ⟨h1, h2⟩ := h
      subst h1
      subst h2
      exact ⟨rfl, rfl⟩

theorem AdjacencyMatrix.length_connect {K E : Type} [DecidableEq K] (m : AdjacencyMatrix K E)
    (u v : K) (weight : E) : (m.connect u v weight).matrix.length = m.matrix.length := by
  rw [AdjacencyMatrix.connect]
  cases h : m.idxs u v with
  | none => rfl
  | some p =>
    cases p
    simp [List.length_set]

theorem AdjacencyMatrix.wf_connect {K E : Type} [DecidableEq K] (m : AdjacencyMatrix K E)
    (u v : K) (weight : E) (h : m.wf) : (m.connect u v weight).wf := by
  cases hidxs : m.idxs u v with
  | none =>
    rw [m.connect_of_idxs_none weight hidxs]
    exact h
  | some p =>
    obtain ⟨ui, vi⟩ := p
    obtain ⟨hu, hv⟩ := m.idxs_some_inv hidxs
    have hui : ui < m.matrix.length := h.2 u ui hu
    have hconn : (m.connect u v weight).matrix =
        m.matrix.set ui ((m.matrix.getD ui []).set vi (some weight)) := by
      rw [AdjacencyMatrix.connect, hidxs]
    constructor
    · intro row hrow
      rw [m.length_connect u v weight]
      rw [hconn] at hrow
      rcases List.mem_or_eq_of_mem_set hrow with hrow2 | hrow2
      · exact h.1 row hrow2
      · rw [hrow2, List.length_set, List.getD_eq_getElem _ _ hui]
        exact h.1 _ (List.getElem_mem hui)
    · intro k i hk
      rw [m.length_connect u v weight]
      refine h.2 k i ?_
      have : (m.connect u v weight).idx_map = m.idx_map := m.idx_map_connect u v weight
      rw [this] at hk
      exact hk

theorem AdjacencyMatrix.wf_applyOps {K E : Type} [DecidableEq K] :
    ∀ (ops : List (Op K Unit E)) (m : AdjacencyMatrix K E), m.wf →
      (m.applyOps ops).wf ∧
      (m.applyOps ops).matrix.length = m.matrix.length + countInserts ops
  | [], m, h => ⟨h, rfl⟩
  | .insert key _ :: ops, m, h => by
    obtain ⟨h1, h2⟩ := wf_applyOps ops (m.insert key) (m.wf_insert key h)
    refine ⟨h1, ?_⟩
    rw [show (m.applyOps (.insert key () :: ops)) = ((m.insert key).applyOps ops) from rfl] at *
    rw [h2, m.length_insert key, countInserts]
    omega
  | .connect u v weight :: ops, m, h => by
    obtain ⟨h1, h2⟩ := wf_applyOps ops (m.connect u v weight) (m.wf_connect u v weight h)
    refine ⟨h1, ?_⟩
    rw [show (m.applyOps (.connect u v weight :: ops)) = ((m.connect u v weight).applyOps ops)
      from rfl] at *
    rw [h2, m.length_connect u v weight, countInserts]

/-- **C9.** After any sequence of calls on the matrix store: the matrix is
square with side length equal to the number of `insert` calls, every assigned
index is strictly below that side length, and hence the indexing done by
`connect`/`get_edge` is always in bounds. -/
theorem C9_matrix_square_in_bounds {K E : Type} [DecidableEq K] (ops : List (Op K Unit E)) :
    ((AdjacencyMatrix.new (K := K) (E := E)).applyOps ops).matrix.length = countInserts ops ∧
    (∀ row ∈ ((AdjacencyMatrix.new (K := K) (E := E)).applyOps ops).matrix,
      row.length = countInserts ops) ∧
    (∀ k i, ((AdjacencyMatrix.new (K := K) (E := E)).applyOps ops).idx_map.get k = some i →
      i < countInserts ops) ∧
    (∀ u v p, ((AdjacencyMatrix.new (K := K) (E := E)).applyOps ops).idxs u v = some p →
      ∃ row, ((AdjacencyMatrix.new (K := K) (E := E)).applyOps ops).matrix[p.1]? = some row ∧
        p.2 < row.length) := by
  obtain ⟨hwf, hlen⟩ :=
    AdjacencyMatrix.wf_applyOps ops AdjacencyMatrix.new AdjacencyMatrix.wf_new
  rw [AdjacencyMatrix.new] at hlen
  simp only [List.length_nil, Nat.zero_add] at hlen
  refine ⟨hlen, ?_, ?_, ?_⟩
  · intro row hrow
    rw [← hlen]
    exact hwf.1 row hrow
  · intro k i hk
    rw [← hlen]
    exact hwf.2 k i hk
  · intro u v p hp
    obtain ⟨ui, vi⟩ := p
    obtain ⟨hu, hv⟩ := AdjacencyMatrix.idxs_some_inv _ hp
    have hui := hwf.2 u ui hu
    have hvi := hwf.2 v vi hv
    refine ⟨_, List.getElem?_eq_getElem hui, ?_⟩
    rw [hwf.1 _ (List.getElem_mem hui)]
    exact hvi

/-- Witness for C9 at concrete inputs. -/
theorem C9_matrix_square_in_bounds_witness :
    ∃ row, ((AdjacencyMatrix.new (K := Nat) (E := Nat)).applyOps
      [.insert 1 (), .insert 2 (), .connect 1 2 5]).matrix[0]? = some row ∧ 1 < row.length := by
  have h := C9_matrix_square_in_bounds (K := Nat) (E := Nat)
    [.insert 1 (), .insert 2 (), .connect 1 2 5]
  exact h.2.2.2 1 2 (0, 1) rfl

/-! ## C7 — undirected façades

The source declares `WeightedGraph` and `Graph` (the undirected variants) with
the same fields as the digraph but contains no `impl` block for either; their
methods below are modelled from the spec (§4.5). -/

theorem AdjacencyList.get_edge_mirror {K E : Type} [DecidableEq K] (s : AdjacencyList K E)
    {u v : K} (w : E) (hu : (s.list.get u).isSome = true)
    (hv : (s.list.get v).isSome = true) :
    ((s.connect u v w).connect v u w).get_edge u v = some w ∧
    ((s.connect u v w).connect v u w).get_edge v u = some w := by
  obtain ⟨el_u, hel_u⟩ := Option.isSome_iff_exists.mp hu
  have hv1 : (((s.connect u v w).list.get v)).isSome = true := by
    rw [s.get_connect_isSome u v w v]
    exact hv
  obtain ⟨el_v, hel_v⟩ := Option.isSome_iff_exists.mp hv1
  have hback : ((s.connect u v w).connect v u w).get_edge v u = some w :=
    (s.connect u v w).get_edge_connect_self u w hel_v
  refine ⟨?_, hback⟩
  rcases Decidable.em (u = v) with rfl | huv
  · exact hback
  · rw [(s.connect u v w).get_edge_connect_ne v u w (Or.inl huv)]
    exact s.get_edge_connect_self v w hel_u

/-- The mirrored double connect of the undirected façades, proved at the
representation level for a list-backed store with both endpoints registered. -/
theorem GraphRepr.get_edge_mirror_connect {K E : Type} [DecidableEq K] (r : GraphRepr K E)
    (u v : K) (w : E) (hL : r.isList = true) (hu : r.registered u = true)
    (hv : r.registered v = true) :
    ((r.connect u v w).connect v u w).get_edge u v = some w ∧
    ((r.connect u v w).connect v u w).get_edge v u = some w := by
  cases r with
  | AdjacencyMatrix m => exact absurd hL (by simp [GraphRepr.isList])
  | AdjacencyList s =>
    have h := s.get_edge_mirror w hu hv
    exact h

/-- `struct WeightedGraph` (weighted undirected): fields as in the source. -/
structure WeightedGraph (K V E : Type) where
  vertex_map : HMap K V
  repr : GraphRepr K E

/-- Modelled from the spec: the source has no `impl WeightedGraph`; §4.5 says
construction yields the default (list) representation and an empty vertex table. -/
def WeightedGraph.new {K V E : Type} : WeightedGraph K V E :=
  ⟨HMap.empty, GraphRepr.default⟩

/-- Modelled from the spec: the source has no `impl WeightedGraph`; §4.5 says
`insert(key, value)` writes the vertex table then registers the key in the
representation. -/
def WeightedGraph.insert {K V E : Type} [DecidableEq K] (g : WeightedGraph K V E)
    (key : K) (value : V) : WeightedGraph K V E :=
  { vertex_map := g.vertex_map.insert key value, repr := g.repr.insert key }

/-- Modelled from the spec: the source has no `impl WeightedGraph`; §4.5 says
`connect(u, v, weight)` delegates to the representation and, being undirected,
also performs the mirrored connect `(v, u, weight)`. -/
def WeightedGraph.connect {K V E : Type} [DecidableEq K] (g : WeightedGraph K V E)
    (u v : K) (weight : E) : WeightedGraph K V E :=
  { g with repr := (g.repr.connect u v weight).connect v u weight }

/-- Modelled from the spec: the source has no `impl WeightedGraph`; §4.5 says
`get_edge` delegates to the representation. -/
def WeightedGraph.get_edge {K V E : Type} (g : WeightedGraph K V E) (u v : K) : Option E :=
  g.repr.get_edge u v

/-- `struct Graph` (unweighted undirected): fields as in the source, with unit
edge payload. -/
structure Graph (K V : Type) where
  vertex_map : HMap K V
  repr : GraphRepr K Unit

/-- Modelled from the spec: the source has no `impl Graph`; §4.5 says
construction yields the default (list) representation and an empty vertex table. -/
def Graph.new {K V : Type} : Graph K V :=
  ⟨HMap.empty, GraphRepr.default⟩

/-- Modelled from the spec: the source has no `impl Graph`; §4.5 says
`insert(key, value)` writes the vertex table then registers the key in the
representation. -/
def Graph.insert {K V : Type} [DecidableEq K] (g : Graph K V) (key : K) (value : V) :
    Graph K V :=
  { vertex_map := g.vertex_map.insert key value, repr := g.repr.insert key }

/-- Modelled from the spec: the source has no `impl Graph`; §4.5 says
`connect(u, v, ())` delegates to the representation and, being undirected, also
performs the mirrored connect `(v, u, ())`. -/
def Graph.connect {K V : Type} [DecidableEq K] (g : Graph K V) (u v : K) : Graph K V :=
  { g with repr := (g.repr.connect u v ()).connect v u () }

/-- Modelled from the spec: the source has no `impl Graph`; §4.5 says
`get_edge` delegates to the representation. -/
def Graph.get_edge {K V : Type} (g : Graph K V) (u v : K) : Option Unit :=
  g.repr.get_edge u v

/-- **C7.** On the (list-backed) undirected façades, weighted and unweighted,
with `u` and `v` registered: `connect(u, v, w)` also creates the mirrored edge,
so both `get_edge(u, v)` and `get_edge(v, u)` return `Some(w)`. -/
theorem C7_undirected_mirror {K V W E : Type} [DecidableEq K] :
    (∀ (gw : WeightedGraph K V E) (u v : K) (w : E), gw.repr.isList = true →
      gw.repr.registered u = true → gw.repr.registered v = true →
      (gw.connect u v w).get_edge u v = some w ∧
      (gw.connect u v w).get_edge v u = some w) ∧
    (∀ (g : Graph K W) (u v : K), g.repr.isList = true →
      g.repr.registered u = true → g.repr.registered v = true →
      (g.connect u v).get_edge u v = some () ∧
      (g.connect u v).get_edge v u = some ()) := by
  constructor
  · intro gw u v w hL hu hv
    exact gw.repr.get_edge_mirror_connect u v w hL hu hv
  · intro g u v hL hu hv
    exact g.repr.get_edge_mirror_connect u v () hL hu hv

/-- Witness for C7 at concrete inputs (the spec's §8 scenario for the
unweighted undirected façade, plus a weighted one). -/
theorem C7_undirected_mirror_witness :
    ((((WeightedGraph.new (K := Nat) (V := Nat) (E := Nat)).insert 1 7).insert 2 8).connect
      1 2 5).get_edge 2 1 = some 5 ∧
    ((((Graph.new (K := Nat) (V := Nat)).insert 1 7).insert 2 8).connect 1 2).get_edge 2 1
      = some () := by
  refine ⟨((C7_undirected_mirror (K := Nat) (V := Nat) (W := Nat) (E := Nat)).1
    (((WeightedGraph.new.insert 1 7).insert 2 8)) 1 2 5 (by rfl) (by rfl) (by rfl)).2, ?_⟩
  exact ((C7_undirected_mirror (K := Nat) (V := Nat) (W := Nat) (E := Nat)).2
    (((Graph.new.insert 1 7).insert 2 8)) 1 2 (by rfl) (by rfl) (by rfl)).2

/-! ## C10 — observational equivalence of the two stores -/

/-- The raw cell read `matrix[i][j]` performed by `get_edge` after index
resolution. -/
def AdjacencyMatrix.cell {K E : Type} (m : AdjacencyMatrix K E) (i j : Nat) : Option E :=
  ((m.matrix[i]?).bind fun row => row[j]?).bind id

theorem AdjacencyMatrix.get_edge_eq_cell {K E : Type} (m : AdjacencyMatrix K E) {u v : K}
    {ui vi : Nat} (hu : m.idx_map.get u = some ui) (hv : m.idx_map.get v = some vi) :
    m.get_edge u v = m.cell ui vi := by
  simp [AdjacencyMatrix.get_edge, m.idxs_of_some hu hv, AdjacencyMatrix.cell]

theorem AdjacencyMatrix.matrix_connect_of_some {K E : Type} [DecidableEq K]
    (m : AdjacencyMatrix K E) {u v : K} {ui vi : Nat} (w : E)
    (hu : m.idx_map.get u = some ui) (hv : m.idx_map.get v = some vi) :
    (m.connect u v w).matrix =
      m.matrix.set ui ((m.matrix.getD ui []).set vi (some w)) := by
  simp [AdjacencyMatrix.connect, m.idxs_of_some hu hv]

theorem AdjacencyMatrix.row_length {K E : Type} (m : AdjacencyMatrix K E) (hwf : m.wf)
    {i : Nat} (hi : i < m.matrix.length) : (m.matrix[i]).length = m.matrix.length :=
  hwf.1 _ (List.getElem_mem hi)

theorem AdjacencyMatrix.cell_connect_self {K E : Type} [DecidableEq K]
    (m : AdjacencyMatrix K E) {u v : K} {ui vi : Nat} (w : E) (hwf : m.wf)
    (hu : m.idx_map.get u = some ui) (hv : m.idx_map.get v = some vi) :
    (m.connect u v w).cell ui vi = some w := by
  have hui : ui < m.matrix.length := hwf.2 u ui hu
  have hvi : vi < m.matrix.length := hwf.2 v vi hv
  have hvi2 : vi < (m.matrix[ui]).length := by
    rw [m.row_length hwf hui]
    exact hvi
  rw [AdjacencyMatrix.cell, m.matrix_connect_of_some w hu hv,
    List.getElem?_set_eq_of_lt _ hui, List.getD_eq_getElem _ _ hui]
  simp only [Option.some_bind]
  rw [List.getElem?_set_eq_of_lt _ hvi2]
  rfl

theorem AdjacencyMatrix.cell_connect_ne {K E : Type} [DecidableEq K]
    (m : AdjacencyMatrix K E) {u v : K} {ui vi : Nat} (w : E) (i j : Nat) (hwf : m.wf)
    (hu : m.idx_map.get u = some ui) (hv : m.idx_map.get v = some vi)
    (hne : i ≠ ui ∨ j ≠ vi) : (m.connect u v w).cell i j = m.cell i j := by
  have hui : ui < m.matrix.length := hwf.2 u ui hu
  rw [AdjacencyMatrix.cell, m.matrix_connect_of_some w hu hv, AdjacencyMatrix.cell]
  rcases Decidable.em (i = ui) with rfl | hiu
  · rcases hne with hne | hne
    · exact absurd rfl hne
    · rw [List.getElem?_set_eq_of_lt _ hui, List.getD_eq_getElem _ _ hui,
        List.getElem?_eq_getElem hui]
      simp only [Option.some_bind]
      rw [List.getElem?_set_ne (fun h => hne h.symm)]
  · rw [List.getElem?_set_ne (fun h => hiu h.symm)]

theorem AdjacencyMatrix.matrix_insert {K E : Type} [DecidableEq K] (m : AdjacencyMatrix K E)
    (key : K) :
    (m.insert key).matrix = m.matrix.map (fun row => row ++ [none]) ++
      [List.replicate (m.matrix.length + 1) none] := by
  simp [AdjacencyMatrix.insert]

theorem AdjacencyMatrix.cell_insert_lt {K E : Type} [DecidableEq K] (m : AdjacencyMatrix K E)
    (key : K) {i j : Nat} (hwf : m.wf) (hi : i < m.matrix.length)
    (hj : j < m.matrix.length) : (m.insert key).cell i j = m.cell i j := by
  have hi2 : i < (m.matrix.map (fun row => row ++ [none])).length := by
    rw [List.length_map]
    exact hi
  rw [AdjacencyMatrix.cell, m.matrix_insert key, List.getElem?_append_left hi2,
    List.getElem?_map, List.getElem?_eq_getElem hi]
  have hj2 : j < (m.matrix[i] ++ [none]).length := by
    rw [List.length_append, m.row_length hwf hi]
    omega
  have hj3 : j < (m.matrix[i]).length := by
    rw [m.row_length hwf hi]
    exact hj
  simp only [Option.map_some', Option.some_bind]
  rw [List.getElem?_append_left hj3, AdjacencyMatrix.cell, List.getElem?_eq_getElem hi]
  simp only [Option.some_bind]

theorem AdjacencyMatrix.cell_insert_row_new {K E : Type} [DecidableEq K]
    (m : AdjacencyMatrix K E) (key : K) (j : Nat) :
    (m.insert key).cell m.matrix.length j = none := by
  have hlen : (m.matrix.map (fun row => row ++ [none])).length = m.matrix.length :=
    List.length_map _ _
  rw [AdjacencyMatrix.cell, m.matrix_insert key]
  rw [show m.matrix.length = (m.matrix.map (fun row => row ++ [none])).length from hlen.symm,
    List.getElem?_concat_length]
  simp only [Option.some_bind]
  rw [List.getElem?_replicate]
  rcases Decidable.em (j < m.matrix.length + 1) with hj | hj
  · rw [if_pos (hlen ▸ hj)]
    rfl
  · rw [if_neg (fun h => hj (hlen ▸ h))]
    rfl

theorem AdjacencyMatrix.cell_insert_col_new {K E : Type} [DecidableEq K]
    (m : AdjacencyMatrix K E) (key : K) {i : Nat} (hwf : m.wf)
    (hi : i < m.matrix.length) : (m.insert key).cell i m.matrix.length = none := by
  have hi2 : i < (m.matrix.map (fun row => row ++ [none])).length := by
    rw [List.length_map]
    exact hi
  rw [AdjacencyMatrix.cell, m.matrix_insert key, List.getElem?_append_left hi2,
    List.getElem?_map, List.getElem?_eq_getElem hi]
  simp only [Option.map_some', Option.some_bind]
  rw [show m.matrix.length = (m.matrix[i]).length from (m.row_length hwf hi).symm,
    List.getElem?_concat_length]
  rfl

theorem AdjacencyList.get_edge_insert_self {K E : Type} [DecidableEq K]
    (s : AdjacencyList K E) (key b : K) : (s.insert key).get_edge key b = none := by
  rw [AdjacencyList.get_edge, AdjacencyList.insert, HMap.get_insert_self]
  rfl

theorem AdjacencyList.get_edge_insert_ne {K E : Type} [DecidableEq K]
    (s : AdjacencyList K E) (key : K) {a : K} (b : K) (h : a ≠ key) :
    (s.insert key).get_edge a b = s.get_edge a b := by
  rw [AdjacencyList.get_edge, AdjacencyList.insert, HMap.get_insert_ne _ _ h,
    AdjacencyList.get_edge]

/-- Validity of a call sequence relative to the keys `done` inserted so far:
no key is inserted twice, and every connect uses already-inserted endpoints. -/
def validOps {K E : Type} [DecidableEq K] : List K → List (Op K Unit E) → Bool
  | _, [] => true
  | done, .insert k _ :: ops => decide (k ∉ done) && validOps (k :: done) ops
  | done, .connect u v _ :: ops =>
    decide (u ∈ done) && decide (v ∈ done) && validOps done ops

/-- Simulation relation: the list store `s` and the matrix store `m` hold the
same graph over the inserted keys `done`. -/
structure Sim {K E : Type} (s : AdjacencyList K E) (m : AdjacencyMatrix K E)
    (done : List K) : Prop where
  dom_list : ∀ k, (s.list.get k).isSome = true ↔ k ∈ done
  dom_matrix : ∀ k, (m.idx_map.get k).isSome = true ↔ k ∈ done
  inj : ∀ k1 k2 i, m.idx_map.get k1 = some i → m.idx_map.get k2 = some i → k1 = k2
  mwf : m.wf
  edges : ∀ u v, s.get_edge u v = m.get_edge u v

theorem sim_new {K E : Type} [DecidableEq K] :
    Sim (AdjacencyList.new (K := K) (E := E)) (AdjacencyMatrix.new (K := K) (E := E)) [] := by
  refine ⟨?_, ?_, ?_, AdjacencyMatrix.wf_new, ?_⟩
  · intro k
    simp [AdjacencyList.new, HMap.get, HMap.empty]
  · intro k
    simp [AdjacencyMatrix.new, HMap.get, HMap.empty]
  · intro k1 k2 i h1
    exact absurd h1 (by simp [AdjacencyMatrix.new, HMap.get, HMap.empty])
  · intro u v
    rfl

theorem Sim.insert {K E : Type} [DecidableEq K] {s : AdjacencyList K E}
    {m : AdjacencyMatrix K E} {done : List K} (hsim : Sim s m done) (k : K)
    (hk : k ∉ done) : Sim (s.insert k) (m.insert k) (k :: done) := by
  have hkm : m.idx_map.get k = none := by
    cases h : m.idx_map.get k with
    | none => rfl
    | some i =>
      refine absurd ((hsim.dom_matrix k).mp ?_) hk
      rw [h]
      rfl
  have hin : (m.insert k).idx_map.get k = some m.matrix.length := by
    rw [m.idx_map_insert k k, if_pos rfl]
  refine ⟨?_, ?_, ?_, m.wf_insert k hsim.mwf, ?_⟩
  · intro x
    rcases Decidable.em (x = k) with rfl | hxk
    · show ((s.list.insert x HMap.empty).get x).isSome = true ↔ _
      rw [HMap.get_insert_self]
      simp
    · show ((s.list.insert k HMap.empty).get x).isSome = true ↔ _
      rw [HMap.get_insert_ne _ _ hxk, hsim.dom_list x]
      simp [List.mem_cons, hxk]
  · intro x
    rcases Decidable.em (x = k) with rfl | hxk
    · rw [m.idx_map_insert x x, if_pos rfl]
      simp
    · rw [m.idx_map_insert k x, if_neg hxk, hsim.dom_matrix x]
      simp [List.mem_cons, hxk]
  · intro k1 k2 i h1 h2
    rw [m.idx_map_insert k k1] at h1
    rw [m.idx_map_insert k k2] at h2
    by_cases h1k : k1 = k
    · by_cases h2k : k2 = k
      · rw [h1k, h2k]
      · rw [if_pos h1k] at h1
        rw [if_neg h2k] at h2
        have hi := Option.some.inj h1
        exact absurd (hsim.mwf.2 k2 i h2) (by omega)
    · by_cases h2k : k2 = k
      · rw [if_neg h1k] at h1
        rw [if_pos h2k] at h2
        have hi := Option.some.inj h2
        exact absurd (hsim.mwf.2 k1 i h1) (by omega)
      · rw [if_neg h1k] at h1
        rw [if_neg h2k] at h2
        exact hsim.inj k1 k2 i h1 h2
  · intro a b
    rcases Decidable.em (a = k) with rfl | hak
    · rw [s.get_edge_insert_self a b]
      cases hb : (m.insert a).idx_map.get b with
      | none =>
        rw [(m.insert a).get_edge_of_idxs_none ((m.insert a).idxs_of_right_none a hb)]
      | some bi =>
        rw [(m.insert a).get_edge_eq_cell hin hb, m.cell_insert_row_new a bi]
    · have hia : (m.insert k).idx_map.get a = m.idx_map.get a := by
        rw [m.idx_map_insert k a, if_neg hak]
      rw [s.get_edge_insert_ne k b hak]
      rcases Decidable.em (b = k) with rfl | hbk
      · rw [hsim.edges a b, m.get_edge_of_idxs_none (m.idxs_of_right_none a hkm)]
        cases ha : m.idx_map.get a with
        | none =>
          rw [(m.insert b).get_edge_of_idxs_none
            ((m.insert b).idxs_of_left_none b (hia.trans ha))]
        | some ai =>
          rw [(m.insert b).get_edge_eq_cell (hia.trans ha) hin,
            m.cell_insert_col_new b hsim.mwf (hsim.mwf.2 a ai ha)]
      · have hib : (m.insert k).idx_map.get b = m.idx_map.get b := by
          rw [m.idx_map_insert k b, if_neg hbk]
        rw [hsim.edges a b]
        cases ha : m.idx_map.get a with
        | none =>
          rw [m.get_edge_of_idxs_none (m.idxs_of_left_none b ha),
            (m.insert k).get_edge_of_idxs_none
              ((m.insert k).idxs_of_left_none b (hia.trans ha))]
        | some ai =>
          cases hb : m.idx_map.get b with
          | none =>
            rw [m.get_edge_of_idxs_none (m.idxs_of_right_none a hb),
              (m.insert k).get_edge_of_idxs_none
                ((m.insert k).idxs_of_right_none a (hib.trans hb))]
          | some bi =>
            rw [m.get_edge_eq_cell ha hb,
              (m.insert k).get_edge_eq_cell (hia.trans ha) (hib.trans hb),
              m.cell_insert_lt k hsim.mwf (hsim.mwf.2 a ai ha) (hsim.mwf.2 b bi hb)]

theorem Sim.connect {K E : Type} [DecidableEq K] {s : AdjacencyList K E}
    {m : AdjacencyMatrix K E} {done : List K} (hsim : Sim s m done) (u v : K) (w : E)
    (hu : u ∈ done) (hv : v ∈ done) : Sim (s.connect u v w) (m.connect u v w) done := by
  obtain ⟨el_u, hel_u⟩ := Option.isSome_iff_exists.mp ((hsim.dom_list u).mpr hu)
  obtain ⟨ui, hui⟩ := Option.isSome_iff_exists.mp ((hsim.dom_matrix u).mpr hu)
  obtain ⟨vi, hvi⟩ := Option.isSome_iff_exists.mp ((hsim.dom_matrix v).mpr hv)
  refine ⟨?_, ?_, ?_, m.wf_connect u v w hsim.mwf, ?_⟩
  · intro x
    rw [show ((s.connect u v w).list.get x).isSome = (s.list.get x).isSome from
      s.get_connect_isSome u v w x]
    exact hsim.dom_list x
  · intro x
    rw [m.idx_map_connect u v w]
    exact hsim.dom_matrix x
  · intro k1 k2 i h1 h2
    rw [m.idx_map_connect u v w] at h1 h2
    exact hsim.inj k1 k2 i h1 h2
  · intro a b
    have hia : (m.connect u v w).idx_map.get a = m.idx_map.get a := by
      rw [m.idx_map_connect u v w]
    have hib : (m.connect u v w).idx_map.get b = m.idx_map.get b := by
      rw [m.idx_map_connect u v w]
    rcases Decidable.em (a = u ∧ b = v) with ⟨rfl, rfl⟩ | hne
    · rw [s.get_edge_connect_self b w hel_u,
        (m.connect a b w).get_edge_eq_cell (hia.trans hui) (hib.trans hvi),
        m.cell_connect_self w hsim.mwf hui hvi]
    · have hne2 : a ≠ u ∨ b ≠ v := by
        rcases Decidable.em (a = u) with h | h
        · exact Or.inr fun hb => hne ⟨h, hb⟩
        · exact Or.inl h
      rw [s.get_edge_connect_ne u v w hne2, hsim.edges a b]
      cases ha : m.idx_map.get a with
      | none =>
        rw [m.get_edge_of_idxs_none (m.idxs_of_left_none b ha),
          (m.connect u v w).get_edge_of_idxs_none
            ((m.connect u v w).idxs_of_left_none b (hia.trans ha))]
      | some ai =>
        cases hb : m.idx_map.get b with
        | none =>
          rw [m.get_edge_of_idxs_none (m.idxs_of_right_none a hb),
            (m.connect u v w).get_edge_of_idxs_none
              ((m.connect u v w).idxs_of_right_none a (hib.trans hb))]
        | some bi =>
          have hcellne : ai ≠ ui ∨ bi ≠ vi := by
            rcases hne2 with h | h
            · exact Or.inl fun he => h (hsim.inj a u ui (he ▸ ha) hui)
            · exact Or.inr fun he => h (hsim.inj b v vi (he ▸ hb) hvi)
          rw [(m.connect u v w).get_edge_eq_cell (hia.trans ha) (hib.trans hb),
            m.cell_connect_ne w ai bi hsim.mwf hui hvi hcellne,
            m.get_edge_eq_cell ha hb]

theorem sim_applyOps {K E : Type} [DecidableEq K] :
    ∀ (ops : List (Op K Unit E)) (done : List K) (s : AdjacencyList K E)
      (m : AdjacencyMatrix K E), Sim s m done → validOps done ops = true →
      ∃ done2, Sim (s.applyOps ops) (m.applyOps ops) done2
  | [], done, _, _, hsim, _ => ⟨done, hsim⟩
  | .insert k _ :: ops, done, s, m, hsim, hvalid => by
    have h2 : (decide (k ∉ done) && validOps (k :: done) ops) = true := hvalid
    rw [Bool.and_eq_true, decide_eq_true_eq] at h2
    exact sim_applyOps ops (k :: done) _ _ (hsim.insert k h2.1) h2.2
  | .connect u v w :: ops, done, s, m, hsim, hvalid => by
    have h2 : (decide (u ∈ done) && decide (v ∈ done) && validOps done ops) = true := hvalid
    rw [Bool.and_eq_true, Bool.and_eq_true, decide_eq_true_eq, decide_eq_true_eq] at h2
    exact sim_applyOps ops done _ _ (hsim.connect u v w h2.1.1 h2.1.2) h2.2

/-- **C10.** For every sequence of `insert`/`connect` calls in which no key is
inserted twice and every connect uses previously inserted endpoints, the list
store and the matrix store are observationally equivalent: after applying the
same sequence to both, `get_edge` agrees on every pair of keys. -/
theorem C10_list_matrix_equivalent {K E : Type} [DecidableEq K]
    (ops : List (Op K Unit E)) (hvalid : validOps [] ops = true) (u v : K) :
    ((AdjacencyList.new (K := K) (E := E)).applyOps ops).get_edge u v =
      ((AdjacencyMatrix.new (K := K) (E := E)).applyOps ops).get_edge u v := by
  obtain ⟨done2, hsim⟩ := sim_applyOps ops [] _ _ sim_new hvalid
  exact hsim.edges u v

/-- Witness for C10 at concrete inputs. -/
theorem C10_list_matrix_equivalent_witness :
    ((AdjacencyList.new (K := Nat) (E := Nat)).applyOps
      [.insert 1 (), .insert 2 (), .connect 1 2 9]).get_edge 1 2 =
    ((AdjacencyMatrix.new (K := Nat) (E := Nat)).applyOps
      [.insert 1 (), .insert 2 (), .connect 1 2 9]).get_edge 1 2 :=
  C10_list_matrix_equivalent [.insert 1 (), .insert 2 (), .connect 1 2 9] (by decide) 1 2

end EdgeCase
